import Mathlib

/-!
Shallow embedding of the ully image-translation core: paragraph text
reconstruction from the OCR symbol tree, region construction, reading-order
sorting (app.ts), and the rect / word-wrap / font-fit / draw steps of
`overlayTranslations` (overlay.ts).
-/

namespace Ully

/-- A raw break-type code as delivered by the OCR client: either a symbolic
string token or a legacy numeric code. -/
inductive BrType where
  | str (s : String)
  | num (n : Int)
deriving DecidableEq

/-- One OCR symbol: optional raw text and optional detected break code
(`s.text ?? ''`, `s.property?.detectedBreak?.type`). -/
structure Symbol where
  text : Option String
  br : Option BrType

/-- One OCR word: a list of symbols. -/
structure Word where
  symbols : List Symbol

/-- A bounding-box vertex whose coordinates may be missing (`v?.x ?? 0`). -/
structure Vertex where
  x : Option Int
  y : Option Int

/-- One OCR paragraph: its words and its bounding-box vertices. -/
structure Paragraph where
  words : List Word
  vertices : List Vertex

/-- One OCR block: a list of paragraphs. -/
structure Block where
  paragraphs : List Paragraph

/-- One OCR page: a list of blocks. -/
structure Page where
  blocks : List Block

/-- An image-space point. -/
structure Point where
  x : Int
  y : Int
deriving DecidableEq

/-- A reconstructed text region: paragraph text plus bounding polygon. -/
structure Region where
  text : String
  box : List Point
deriving DecidableEq

/-- The JS regex whitespace class `\s` (core subset). -/
def isWs (c : Char) : Bool :=
  c == ' ' || c == '\t' || c == '\n' || c == '\r' || c == '\x0b' || c == '\x0c'

/-- Horizontal whitespace, the `[ \t]` character class. -/
def isHws (c : Char) : Bool :=
  c == ' ' || c == '\t'

/-- The separator appended after a symbol by `getParagraphText` (app.ts):
three sequential equality tests against the symbolic token or its legacy
numeric code, each appending its separator when it matches. -/
def brSep (br : Option BrType) : String :=
  (if br == some (.str "SPACE") || br == some (.num 1) then " " else "") ++
    (if br == some (.str "EOL_SURE_SPACE") || br == some (.num 3) then " " else "") ++
      (if br == some (.str "LINE_BREAK") || br == some (.num 5) then "\n" else "")

/-- Embedding of `out.replace(/[ \t]+\n/g, '\n')`: a horizontal-whitespace
character is dropped exactly when only horizontal whitespace stands between
it and a following newline. -/
def stripHwsNl : List Char → List Char
  | [] => []
  | c :: rest =>
    if isHws c && ((rest.dropWhile isHws).head? == some '\n') then stripHwsNl rest
    else c :: stripHwsNl rest

/-- Embedding of `String.prototype.trim`. -/
def wsTrim (l : List Char) : List Char :=
  ((l.dropWhile isWs).reverse.dropWhile isWs).reverse

/-- `getParagraphText` (app.ts): accumulate each symbol's raw text and its
break separator over words and symbols in tree order, then strip horizontal
whitespace preceding newlines and trim. -/
def getParagraphText (pg : Paragraph) : String :=
  let out := pg.words.foldl
    (fun acc w => w.symbols.foldl (fun acc2 s => acc2 ++ s.text.getD "" ++ brSep s.br) acc) ""
  (wsTrim (stripHwsNl out.data)).asString

/-- The canonical break action of the spec's data model. -/
inductive BreakAction where
  | NONE
  | SPACE
  | NEWLINE
deriving DecidableEq

/-- Normalization of a raw break code into a `BreakAction`, testing the
same conditions as `getParagraphText` does. -/
def resolve (br : Option BrType) : BreakAction :=
  if br == some (.str "SPACE") || br == some (.num 1) then .SPACE
  else if br == some (.str "EOL_SURE_SPACE") || br == some (.num 3) then .SPACE
  else if br == some (.str "LINE_BREAK") || br == some (.num 5) then .NEWLINE
  else .NONE

/-- Separator text contributed by each canonical break action. -/
def actionSep : BreakAction → String
  | .NONE => ""
  | .SPACE => " "
  | .NEWLINE => "\n"

/-- Spec-side reconstruction: the flat concatenation, in tree order, of each
symbol's raw text followed by its resolved separator, then the
horizontal-whitespace cleanup and the trim. Stated for comparison with the
accumulator-based `getParagraphText`. -/
def specReconstruct (pg : Paragraph) : String :=
  let flat := String.join (pg.words.map fun w =>
    String.join (w.symbols.map fun s => s.text.getD "" ++ actionSep (resolve s.br)))
  (wsTrim (stripHwsNl flat.data)).asString

/-- Points built from a paragraph's bounding-box vertices; a missing
coordinate defaults to 0 (app.ts). -/
def mkBox (vs : List Vertex) : List Point :=
  vs.map fun v => ⟨v.x.getD 0, v.y.getD 0⟩

/-- Region construction over the page/block/paragraph tree (app.ts): a
paragraph is kept exactly when its reconstructed text is non-empty and its
box has at least 4 points. -/
def buildRegions (pages : List Page) : List Region :=
  pages.flatMap fun p => p.blocks.flatMap fun b => b.paragraphs.filterMap fun pg =>
    let text := getParagraphText pg
    let box := mkBox pg.vertices
    if text ≠ "" ∧ 4 ≤ box.length then some ⟨text, box⟩ else none

/-- Minimum of an integer list by left fold, modelling `Math.min(...xs)` on
a non-empty array (junk value 0 on the empty list). -/
def listMin : List Int → Int
  | [] => 0
  | a :: l => l.foldl min a

/-- Maximum of an integer list by left fold, modelling `Math.max(...xs)`. -/
def listMax : List Int → Int
  | [] => 0
  | a :: l => l.foldl max a

/-- Topmost y of a region's polygon. -/
def topY (r : Region) : Int := listMin (r.box.map Point.y)

/-- Leftmost x of a region's polygon. -/
def leftX (r : Region) : Int := listMin (r.box.map Point.x)

/-- The comparator passed to `regions.sort` (app.ts): compare by topmost y
when the vertical gap exceeds 6 pixels, otherwise by leftmost x. -/
def cmpRegion (a b : Region) : Int :=
  if 6 < |topY a - topY b| then topY a - topY b
  else leftX a - leftX b

/-- `regions.sort(cmp)` modelled as a stable merge sort over the comparator
(JS `Array.prototype.sort` is specified to be stable). -/
def sortRegions (l : List Region) : List Region :=
  l.mergeSort fun a b => decide (cmpRegion a b ≤ 0)

/-- The global ordering property the spec asserts of the sorted output:
every earlier/later pair is in ascending `topY` order when its vertical gap
exceeds 6, and in ascending `leftX` order otherwise. -/
def claimedOrder (l : List Region) : Prop :=
  l.Pairwise fun a b =>
    if 6 < |topY a - topY b| then topY a < topY b else leftX a ≤ leftX b

/-- Rect derivation of `overlayTranslations` (overlay.ts): the erase/draw
rectangle computed from the polygon and the image dimensions. -/
def rectOf (imgW imgH : Int) (box : List Point) : Int × Int × Int × Int :=
  let xs := box.map Point.x
  let ys := box.map Point.y
  let x := max 0 (listMin xs)
  let y := max 0 (listMin ys)
  let w := max 1 (min imgW (listMax xs) - x)
  let h := max 1 (min imgH (listMax ys) - y)
  (x, y, w, h)

/-- Spec-side clamp of a value into `[lo, hi]`. -/
def clamp (v lo hi : Int) : Int := min hi (max lo v)

/-- Spec-side rect formula exactly as the claim states it, with both
coordinates clamped into the image on both sides. -/
def claimRect (imgW imgH : Int) (box : List Point) : Int × Int × Int × Int :=
  let xs := box.map Point.x
  let ys := box.map Point.y
  let x := clamp (listMin xs) 0 imgW
  let y := clamp (listMin ys) 0 imgH
  let w := max 1 (clamp (listMax xs) 0 imgW - x)
  let h := max 1 (clamp (listMax ys) 0 imgH - y)
  (x, y, w, h)

/-- Embedding of `String.prototype.split(' ')` on the character list. -/
def splitSp : List Char → List (List Char)
  | [] => [[]]
  | c :: rest =>
    if c == ' ' then [] :: splitSp rest
    else
      match splitSp rest with
      | [] => [[c]]
      | w :: ws => (c :: w) :: ws

/-- Collapse every maximal whitespace run to one space, the embedding of
`replace(/\s+/g, ' ')`. -/
def collapseWs : List Char → List Char
  | [] => []
  | c :: rest =>
    if isWs c then
      match rest with
      | [] => [' ']
      | c2 :: _ => if isWs c2 then collapseWs rest else ' ' :: collapseWs rest
    else c :: collapseWs rest

/-- The word list used by `wrapLines` (overlay.ts): normalize whitespace
runs to single spaces, trim, split on spaces, drop empty fragments. -/
def splitWords (text : String) : List String :=
  ((splitSp (wsTrim (collapseWs text.data))).filter fun w => !w.isEmpty).map List.asString

/-- One step of the greedy wrap loop (overlay.ts): extend the current line
with the next word unless the candidate overflows and the line is
non-empty, in which case the line is committed and the word starts anew. -/
def wrapStep (measure : String → Int) (maxW : Int)
    (acc : List String × String) (w : String) : List String × String :=
  let test := if acc.2 = "" then w else acc.2 ++ " " ++ w
  if maxW < measure test ∧ acc.2 ≠ "" then (acc.1 ++ [acc.2], w)
  else (acc.1, test)

/-- `wrapLines` (overlay.ts): fold the greedy step over the words and
append the final partial line when non-empty. -/
def wrapLines (measure : String → Int) (text : String) (maxW : Int) : List String :=
  let r := (splitWords text).foldl (wrapStep measure maxW) ([], "")
  if r.2 = "" then r.1 else r.1 ++ [r.2]

/-- `Math.ceil(fontSize * 1.25)` on naturals. -/
def lineHeightOf (fontSize : Nat) : Nat := (fontSize * 5 + 3) / 4

/-- The starting font size `Math.max(10, Math.floor(maxH * 0.75))`. -/
def startFont (maxH : Int) : Nat := max 10 ((3 * maxH / 4).toNat)

/-- The font-fit loop (overlay.ts): wrap at the current size, stop when the
wrapped height fits or the size has reached 10, otherwise shrink the font
geometrically. Returns the final font size, line height and lines. -/
def fontFitLoop (measure : Nat → String → Int) (text : String) (maxW maxH : Int)
    (fontSize : Nat) : Nat × Nat × List String :=
  let lineHeight := lineHeightOf fontSize
  let lines := wrapLines (measure fontSize) text maxW
  if (lines.length * lineHeight : Int) ≤ maxH ∨ fontSize ≤ 10 then
    (fontSize, lineHeight, lines)
  else fontFitLoop measure text maxW maxH (fontSize * 9 / 10)
termination_by fontSize
decreasing_by
  rename_i h
  push_neg at h
  omega

/-- The number of shrink steps the font-fit loop performs. -/
def fontFitCount (measure : Nat → String → Int) (text : String) (maxW maxH : Int)
    (fontSize : Nat) : Nat :=
  let lineHeight := lineHeightOf fontSize
  let lines := wrapLines (measure fontSize) text maxW
  if (lines.length * lineHeight : Int) ≤ maxH ∨ fontSize ≤ 10 then 0
  else fontFitCount measure text maxW maxH (fontSize * 9 / 10) + 1
termination_by fontSize
decreasing_by
  rename_i h
  push_neg at h
  omega

/-- The draw loop (overlay.ts): the cursor `cy` starts at `y + pad` and
advances by `lineHeight`; before each line, drawing stops when the line's
top would exceed `y + h - lineHeight`. Returns the drawn
(text, drawX, drawY) triples. -/
def drawLoop (x y h pad lineHeight : Int) : Int → List String → List (String × Int × Int)
  | _, [] => []
  | cy, line :: rest =>
    if y + h - lineHeight < cy then []
    else (line, x + pad, cy) :: drawLoop x y h pad lineHeight (cy + lineHeight) rest

/-- All lines actually drawn for a region. -/
def drawnLines (x y h pad lineHeight : Int) (lines : List String) : List (String × Int × Int) :=
  drawLoop x y h pad lineHeight (y + pad) lines

/-- Spec-side description of the draw step: place line `i` at
`(x + pad, y + pad + i * lineHeight)` and keep exactly the longest prefix
of lines whose tops do not exceed `y + h - lineHeight`. -/
def drawnSpec (x y h pad lineHeight : Int) (lines : List String) : List (String × Int × Int) :=
  (lines.enum.takeWhile fun p => decide (y + pad + (p.1 : Int) * lineHeight ≤ y + h - lineHeight)).map
    fun p => (p.2, x + pad, y + pad + (p.1 : Int) * lineHeight)

/-- A region paired with its translated replacement text. -/
structure DrawRegion where
  text : String
  box : List Point
  translated : String
deriving DecidableEq

/-- `toDraw` (app.ts): pair region `i` with `translated[i]`, defaulting to
the empty string past the end of the translated list. -/
def toDraw (regions : List Region) (translated : List String) : List DrawRegion :=
  regions.mapIdx fun i r => ⟨r.text, r.box, translated.getD i ""⟩

instance (l : List Region) : Decidable (claimedOrder l) := by
  unfold claimedOrder
  infer_instance

/-- The Example-1 paragraph: symbols H,e,l,l,o with a SPACE break on the
last, then W,o,r,l,d. -/
def helloPara : Paragraph :=
  ⟨[⟨[⟨some "H", none⟩, ⟨some "e", none⟩, ⟨some "l", none⟩, ⟨some "l", none⟩,
      ⟨some "o", some (.str "SPACE")⟩]⟩,
    ⟨[⟨some "W", none⟩, ⟨some "o", none⟩, ⟨some "r", none⟩, ⟨some "l", none⟩,
      ⟨some "d", none⟩]⟩], []⟩

/-- A two-symbol paragraph whose first symbol carries a SURE_SPACE break. -/
def surePara : Paragraph :=
  ⟨[⟨[⟨some "a", some (.str "SURE_SPACE")⟩, ⟨some "b", none⟩]⟩], []⟩

section Theorems

/-- Folding string append over a list equals appending the join. -/
theorem foldl_append_strings : ∀ (l : List String) (acc : String),
    l.foldl (· ++ ·) acc = acc ++ String.join l := by
  intro l
  induction l with
  | nil => intro acc; simp [String.join]
  | cons s rest ih =>
    intro acc
    have hj : String.join (s :: rest) = s ++ String.join rest := by
      show List.foldl (· ++ ·) "" (s :: rest) = _
      rw [List.foldl_cons, String.empty_append, ih s]
    rw [List.foldl_cons, ih (acc ++ s), hj, String.append_assoc]

/-- Join of a cons. -/
theorem join_cons (s : String) (l : List String) :
    String.join (s :: l) = s ++ String.join l := by
  show List.foldl (· ++ ·) "" (s :: l) = _
  rw [List.foldl_cons, String.empty_append, foldl_append_strings]

/-- Folding an accumulator-append of `f` over a list equals appending the
join of the mapped list. -/
theorem foldl_append_join (f : α → String) : ∀ (l : List α) (acc : String),
    l.foldl (fun a x => a ++ f x) acc = acc ++ String.join (l.map f) := by
  intro l
  induction l with
  | nil => intro acc; simp [String.join]
  | cons x xs ih =>
    intro acc
    rw [List.foldl_cons, ih (acc ++ f x), List.map_cons, join_cons, String.append_assoc]

/-- The separator appended by `getParagraphText` is exactly the separator
of the normalized break action. -/
theorem brSep_eq_actionSep : ∀ br, brSep br = actionSep (resolve br) := by
  intro br
  rcases br with _ | ⟨s | n⟩
  · rfl
  · by_cases h1 : s = "SPACE" <;> by_cases h2 : s = "EOL_SURE_SPACE" <;>
      by_cases h3 : s = "LINE_BREAK" <;>
      simp_all [brSep, resolve, actionSep]
  · by_cases h1 : n = 1 <;> by_cases h2 : n = 3 <;> by_cases h3 : n = 5 <;>
      simp_all [brSep, resolve, actionSep]

/-- The accumulated paragraph string equals the spec-side flat join. -/
theorem paragraph_fold_eq_join (pg : Paragraph) :
    pg.words.foldl
        (fun acc w => w.symbols.foldl (fun acc2 s => acc2 ++ s.text.getD "" ++ brSep s.br) acc) "" =
      String.join (pg.words.map fun w =>
        String.join (w.symbols.map fun s => s.text.getD "" ++ actionSep (resolve s.br))) := by
  have h1 : ∀ (w : Word) (acc : String),
      w.symbols.foldl (fun acc2 s => acc2 ++ s.text.getD "" ++ brSep s.br) acc =
        acc ++ String.join (w.symbols.map fun s => s.text.getD "" ++ actionSep (resolve s.br)) := by
    intro w acc
    have hfun : (fun (acc2 : String) (s : Symbol) => acc2 ++ s.text.getD "" ++ brSep s.br) =
        fun (acc2 : String) (s : Symbol) =>
          acc2 ++ (s.text.getD "" ++ actionSep (resolve s.br)) := by
      funext acc2 s
      rw [String.append_assoc, brSep_eq_actionSep]
    rw [hfun, foldl_append_join]
  have h2 : (fun (acc : String) (w : Word) =>
        w.symbols.foldl (fun acc2 s => acc2 ++ s.text.getD "" ++ brSep s.br) acc) =
      fun (acc : String) (w : Word) =>
        acc ++ String.join (w.symbols.map fun s => s.text.getD "" ++ actionSep (resolve s.br)) := by
    funext acc w
    exact h1 w acc
  rw [h2, foldl_append_join, String.empty_append]

/-- Claim C6: paragraph reconstruction is the tree-order concatenation of
each symbol's raw text followed by its resolved separator (one space for
SPACE, one newline for NEWLINE, nothing for NONE), after which horizontal
whitespace preceding a newline is deleted and the whole string is trimmed;
in particular the Hello/World example reconstructs to "Hello World". -/
theorem reconstruction_spec :
    (∀ pg, getParagraphText pg = specReconstruct pg) ∧
      getParagraphText helloPara = "Hello World" := by
  constructor
  · intro pg
    unfold getParagraphText specReconstruct
    rw [paragraph_fold_eq_join]
  · decide

/-- Claim C1 counterexample: a symbol carrying a SURE_SPACE break is
followed by no separator, so the reconstruction of [a·SURE_SPACE, b]
is "ab" and not the "a b" the claimed mapping table demands. -/
theorem sure_space_dropped :
    getParagraphText surePara = "ab" ∧ ("ab" : String) ≠ "a b" := by
  constructor
  · decide
  · decide

/-- Claim C1 (amended): the separator appended after a symbol is determined
by its break code as follows — SPACE or 1 and EOL_SURE_SPACE or 3 yield one
space; LINE_BREAK or 5 yields one newline; SURE_SPACE or 2, HYPHEN or 4, an
unset code, and any unknown code yield no separator. -/
theorem break_resolution_table :
    (∀ br, brSep br = actionSep (resolve br)) ∧
      resolve (some (.str "SPACE")) = .SPACE ∧ resolve (some (.num 1)) = .SPACE ∧
      resolve (some (.str "EOL_SURE_SPACE")) = .SPACE ∧ resolve (some (.num 3)) = .SPACE ∧
      resolve (some (.str "LINE_BREAK")) = .NEWLINE ∧ resolve (some (.num 5)) = .NEWLINE ∧
      resolve (some (.str "SURE_SPACE")) = .NONE ∧ resolve (some (.num 2)) = .NONE ∧
      resolve (some (.str "HYPHEN")) = .NONE ∧ resolve (some (.num 4)) = .NONE ∧
      resolve none = .NONE ∧
      (∀ s, s ≠ "SPACE" → s ≠ "EOL_SURE_SPACE" → s ≠ "LINE_BREAK" →
        resolve (some (.str s)) = .NONE) ∧
      (∀ n : Int, n ≠ 1 → n ≠ 3 → n ≠ 5 → resolve (some (.num n)) = .NONE) := by
  refine ⟨brSep_eq_actionSep, by decide, by decide, by decide, by decide, by decide, by decide,
    by decide, by decide, by decide, by decide, by decide, ?_, ?_⟩
  · intro s h1 h2 h3
    simp [resolve, h1, h2, h3]
  · intro n h1 h2 h3
    simp [resolve, h1, h2, h3]

/-- Witness for the amended C1 theorem: the unknown symbolic code "WAT" and
the unknown numeric code 9 both resolve to no separator. -/
theorem break_resolution_table_witness :
    resolve (some (.str "WAT")) = .NONE ∧ resolve (some (.num 9)) = .NONE :=
  ⟨break_resolution_table.2.2.2.2.2.2.2.2.2.2.2.2.1 "WAT" (by decide) (by decide) (by decide),
    break_resolution_table.2.2.2.2.2.2.2.2.2.2.2.2.2 9 (by decide) (by decide) (by decide)⟩

/-- A left fold with `min` never exceeds its initial accumulator. -/
theorem foldl_min_le_init : ∀ (l : List Int) (a : Int), l.foldl min a ≤ a := by
  intro l
  induction l with
  | nil => intro a; exact le_refl a
  | cons b t ih =>
    intro a
    calc t.foldl min (min a b) ≤ min a b := ih (min a b)
      _ ≤ a := min_le_left a b

/-- A left fold with `max` is at least its initial accumulator. -/
theorem init_le_foldl_max : ∀ (l : List Int) (a : Int), a ≤ l.foldl max a := by
  intro l
  induction l with
  | nil => intro a; exact le_refl a
  | cons b t ih =>
    intro a
    calc a ≤ max a b := le_max_left a b
      _ ≤ t.foldl max (max a b) := ih (max a b)

/-- The minimum of an integer list never exceeds its maximum. -/
theorem listMin_le_listMax : ∀ (l : List Int), listMin l ≤ listMax l := by
  intro l
  cases l with
  | nil => exact le_refl 0
  | cons a t =>
    calc t.foldl min a ≤ a := foldl_min_le_init t a
      _ ≤ t.foldl max a := init_le_foldl_max t a

/-- Claim C2 counterexample: for the polygon with all x in [300,400] on a
200-wide image, the code's rectangle has x = 300 while the claimed
formula clamps x to 200. -/
theorem rect_no_upper_clamp :
    rectOf 200 200 [⟨300, 0⟩, ⟨400, 0⟩, ⟨400, 30⟩, ⟨300, 30⟩] = (300, 0, 1, 30) ∧
      claimRect 200 200 [⟨300, 0⟩, ⟨400, 0⟩, ⟨400, 30⟩, ⟨300, 30⟩] = (200, 0, 1, 30) ∧
      ((300 : Int), (0 : Int), (1 : Int), (30 : Int)) ≠ (200, 0, 1, 30) := by
  refine ⟨by decide, by decide, by decide⟩

/-- Claim C2 (amended): the erase/draw rectangle is x = max(0, min xs),
y = max(0, min ys) — clamped below at 0 but not above at the image
dimension — with w = max(1, min(imgW, max xs) − x) and
h = max(1, min(imgH, max ys) − y); the claimed two-sided clamp formulas
agree with this whenever min xs ≤ imgW and min ys ≤ imgH (for a
non-negatively sized image), and the example polygon
[(0,0),(100,0),(100,30),(0,30)] on a 200×200 image gives (0,0,100,30). -/
theorem rect_formula :
    (∀ (imgW imgH : Int) (box : List Point), 0 ≤ imgW → 0 ≤ imgH →
      listMin (box.map Point.x) ≤ imgW → listMin (box.map Point.y) ≤ imgH →
      rectOf imgW imgH box = claimRect imgW imgH box) ∧
      rectOf 200 200 [⟨0, 0⟩, ⟨100, 0⟩, ⟨100, 30⟩, ⟨0, 30⟩] = (0, 0, 100, 30) := by
  constructor
  · intro imgW imgH box hW hH hx hy
    have hxm : listMin (box.map Point.x) ≤ listMax (box.map Point.x) :=
      listMin_le_listMax (box.map Point.x)
    have hym : listMin (box.map Point.y) ≤ listMax (box.map Point.y) :=
      listMin_le_listMax (box.map Point.y)
    simp only [rectOf, claimRect, clamp, Prod.mk.injEq]
    omega
  · decide

/-- Witness for the amended C2 theorem: the Example-2 polygon on the
200×200 image satisfies the agreement hypotheses and both formulas give
the rectangle (0,0,100,30). -/
theorem rect_formula_witness :
    rectOf 200 200 [⟨0, 0⟩, ⟨100, 0⟩, ⟨100, 30⟩, ⟨0, 30⟩] =
      claimRect 200 200 [⟨0, 0⟩, ⟨100, 0⟩, ⟨100, 30⟩, ⟨0, 30⟩] :=
  rect_formula.1 200 200 [⟨0, 0⟩, ⟨100, 0⟩, ⟨100, 30⟩, ⟨0, 30⟩]
    (by decide) (by decide) (by decide) (by decide)

/-- A region whose polygon occupies y ∈ [0,5], x ∈ [100,110]. -/
def cexA : Region := ⟨"A", [⟨100, 0⟩, ⟨110, 0⟩, ⟨110, 5⟩, ⟨100, 5⟩]⟩

/-- A region whose polygon occupies y ∈ [6,11], x ∈ [50,60]. -/
def cexB : Region := ⟨"B", [⟨50, 6⟩, ⟨60, 6⟩, ⟨60, 11⟩, ⟨50, 11⟩]⟩

/-- A region whose polygon occupies y ∈ [12,17], x ∈ [0,10]. -/
def cexC : Region := ⟨"C", [⟨0, 12⟩, ⟨10, 12⟩, ⟨10, 17⟩, ⟨0, 17⟩]⟩

/-- Claim C3 counterexample: on the regions A (topY 0, leftX 100),
B (topY 6, leftX 50), C (topY 12, leftX 0) the comparator is cyclic
(A–B and B–C fall in the 6-pixel tolerance and order by leftX, while A–C
orders by topY), the sort emits [C, B, A], whose pair (C, A) has a
vertical gap of 12 yet descending topY — and no permutation of the three
regions satisfies the claimed global ordering property. -/
theorem sort_global_order_fails :
    sortRegions [cexA, cexB, cexC] = [cexC, cexB, cexA] ∧
      ¬ claimedOrder [cexC, cexB, cexA] ∧
      ¬ claimedOrder [cexA, cexB, cexC] ∧ ¬ claimedOrder [cexA, cexC, cexB] ∧
      ¬ claimedOrder [cexB, cexA, cexC] ∧ ¬ claimedOrder [cexB, cexC, cexA] ∧
      ¬ claimedOrder [cexC, cexA, cexB] := by
  refine ⟨?_, by decide, by decide, by decide, by decide, by decide, by decide⟩
  simp [sortRegions, List.mergeSort, List.splitInTwo, List.splitAt, List.splitAt.go,
    List.merge, cmpRegion, topY, leftX, listMin, cexA, cexB, cexC]

/-- Claim C3 (amended): `sort` is a stable merge sort under the code's
comparator — its output is a permutation of its input and an input already
pairwise-ordered by the comparator is left unchanged — and, pairwise, the
comparator orders regions by ascending topY when |topY(a) − topY(b)| > 6
and by ascending leftX otherwise; because the comparator is not
transitive, the corresponding global property of the whole output can
fail (no ordering of the counterexample's three regions satisfies it). -/
theorem sort_comparator_spec :
    (∀ l : List Region, (sortRegions l).Perm l) ∧
      (∀ l : List Region, l.Pairwise (fun a b => cmpRegion a b ≤ 0) → sortRegions l = l) ∧
      (∀ a b, 6 < |topY a - topY b| → (cmpRegion a b < 0 ↔ topY a < topY b)) ∧
      (∀ a b, |topY a - topY b| ≤ 6 → (cmpRegion a b < 0 ↔ leftX a < leftX b)) := by
  refine ⟨?_, ?_, ?_, ?_⟩
  · intro l
    exact List.mergeSort_perm l _
  · intro l hl
    exact List.mergeSort_of_sorted (hl.imp fun h => decide_eq_true h)
  · intro a b hgap
    simp only [cmpRegion, if_pos hgap]
    omega
  · intro a b hgap
    have : ¬ 6 < |topY a - topY b| := not_lt.mpr hgap
    simp only [cmpRegion, if_neg this]
    omega

/-- Witness for the amended C3 theorem at concrete inputs: the output of
sorting [C, B] is a permutation of it, sorting [C, B] (already
comparator-ordered) leaves it unchanged, and the comparator facts hold on
the pair (A, C) with vertical gap 12 and the pair (A, B) with gap 6. -/
theorem sort_comparator_spec_witness :
    (sortRegions [cexC, cexB]).Perm [cexC, cexB] ∧
      sortRegions [cexC, cexB] = [cexC, cexB] ∧
      (cmpRegion cexA cexC < 0 ↔ topY cexA < topY cexC) ∧
      (cmpRegion cexA cexB < 0 ↔ leftX cexA < leftX cexB) :=
  ⟨sort_comparator_spec.1 [cexC, cexB],
    sort_comparator_spec.2.1 [cexC, cexB] (by decide),
    sort_comparator_spec.2.2.1 cexA cexC (by decide),
    sort_comparator_spec.2.2.2 cexA cexB (by decide)⟩

/-- The draw loop started with the cursor at line index `i` draws exactly
the prefix of the remaining enumerated lines whose tops fit. -/
theorem drawLoop_eq (x y h pad lh : Int) :
    ∀ (lines : List String) (i : Nat),
      drawLoop x y h pad lh (y + pad + (i : Int) * lh) lines =
        ((List.enumFrom i lines).takeWhile fun p =>
            decide (y + pad + (p.1 : Int) * lh ≤ y + h - lh)).map
          fun p => (p.2, x + pad, y + pad + (p.1 : Int) * lh) := by
  intro lines
  induction lines with
  | nil => intro i; simp [drawLoop]
  | cons line rest ih =>
    intro i
    have harith : y + pad + (i : Int) * lh + lh = y + pad + ((i + 1 : Nat) : Int) * lh := by
      push_cast
      ring
    by_cases hc : y + pad + (i : Int) * lh ≤ y + h - lh
    · have hstep : drawLoop x y h pad lh (y + pad + (i : Int) * lh) (line :: rest) =
          (line, x + pad, y + pad + (i : Int) * lh) ::
            drawLoop x y h pad lh (y + pad + (i : Int) * lh + lh) rest := by
        simp only [drawLoop, if_neg (not_lt.mpr hc)]
      rw [hstep, harith, ih (i + 1), List.enumFrom, List.takeWhile_cons]
      simp [hc]
    · have hstep : drawLoop x y h pad lh (y + pad + (i : Int) * lh) (line :: rest) = [] := by
        simp only [drawLoop, if_pos (lt_of_not_le hc)]
      rw [hstep, List.enumFrom, List.takeWhile_cons]
      simp [hc]

/-- Claim C7: lines are drawn starting at (x+pad, y+pad) with successive
vertical offsets of lineHeight, and drawing stops before the first line
whose top would exceed y + h − lineHeight, silently dropping the rest:
the drawn triples are exactly the fitting prefix of the enumerated line
placements. Both sides are total functions, so rendering never fails when
the text does not fit — it truncates. -/
theorem draw_truncation_spec :
    ∀ (x y h pad lineHeight : Int) (lines : List String),
      drawnLines x y h pad lineHeight lines = drawnSpec x y h pad lineHeight lines := by
  intro x y h pad lh lines
  have hmain := drawLoop_eq x y h pad lh lines 0
  simp only [Nat.cast_zero, zero_mul, add_zero] at hmain
  rw [drawnLines, drawnSpec]
  simpa [List.enum] using hmain

/-- Claim C8: a region is produced from the tree exactly for the
paragraphs whose reconstructed text is non-empty and whose box has at
least 4 vertices; a missing x or y coordinate on a vertex defaults to 0,
and region construction is a total function, raising no error for
malformed geometry. -/
theorem region_filter_iff :
    (∀ (pages : List Page) (r : Region),
      r ∈ buildRegions pages ↔
        ∃ p ∈ pages, ∃ b ∈ p.blocks, ∃ pg ∈ b.paragraphs,
          getParagraphText pg ≠ "" ∧ 4 ≤ (mkBox pg.vertices).length ∧
          (⟨getParagraphText pg, mkBox pg.vertices⟩ : Region) = r) ∧
      mkBox [⟨none, some 7⟩, ⟨some 5, none⟩, ⟨none, none⟩] = [⟨0, 7⟩, ⟨5, 0⟩, ⟨0, 0⟩] := by
  constructor
  · intro pages r
    simp only [buildRegions, List.mem_flatMap, List.mem_filterMap,
      Option.ite_none_right_eq_some, Option.some.injEq]
    tauto
  · decide

/-- Claim C9: the i-th draw entry keeps the i-th region's text and box and
receives `translated[i]`, which defaults to the empty string whenever the
translated list is shorter; a region with empty translated text yields no
wrapped lines, and drawing an empty line list draws nothing (the rect
erase is unconditional). -/
theorem pairing_spec :
    ∀ (regions : List Region) (translated : List String),
      (toDraw regions translated).length = regions.length ∧
      (∀ i, i < regions.length →
        (toDraw regions translated)[i]? =
          some ⟨(regions.getD i ⟨"", []⟩).text, (regions.getD i ⟨"", []⟩).box,
            translated.getD i ""⟩) ∧
      (∀ i, translated.length ≤ i → translated.getD i "" = "") ∧
      (∀ (measure : String → Int) (maxW : Int), wrapLines measure "" maxW = []) ∧
      (∀ x y hh pad lh, drawnLines x y hh pad lh [] = []) := by
  intro regions translated
  refine ⟨by simp [toDraw], ?_, ?_, ?_, ?_⟩
  · intro i hi
    simp [toDraw, List.getElem?_mapIdx, List.getElem?_eq_getElem hi,
      List.getD_eq_getElem _ _ hi]
  · intro i hi
    simp [List.getElem?_eq_none hi]
  · intro measure maxW
    rfl
  · intro x y hh pad lh
    rfl

/-- Witness for the C9 theorem, Example 3: with 3 regions and a 2-element
translated list, the third draw entry's translated text is the empty
string, whose wrap yields no lines. -/
theorem pairing_spec_witness :
    (toDraw [⟨"p", []⟩, ⟨"q", []⟩, ⟨"r", []⟩] ["x", "y"])[2]? =
      some ⟨"r", [], ""⟩ ∧
      wrapLines (fun s => (s.length : Int)) "" 40 = [] :=
  ⟨by
    have := (pairing_spec [⟨"p", []⟩, ⟨"q", []⟩, ⟨"r", []⟩] ["x", "y"]).2.1 2 (by decide)
    simpa using this,
    (pairing_spec [] []).2.2.2.1 (fun s => (s.length : Int)) 40⟩

/-- Collapsing a whitespace-only character list yields nothing or a single
space. -/
theorem collapseWs_allWs : ∀ l : List Char, (∀ c ∈ l, isWs c = true) →
    collapseWs l = [] ∨ collapseWs l = [' '] := by
  intro l
  induction l with
  | nil => intro _; exact Or.inl rfl
  | cons c rest ih =>
    intro h
    have hc : isWs c = true := h c (List.mem_cons_self c rest)
    cases rest with
    | nil =>
      have hstep : collapseWs [c] = [' '] := by
        conv_lhs => rw [collapseWs]
        simp [hc]
      exact Or.inr hstep
    | cons c2 rest2 =>
      have hc2 : isWs c2 = true := h c2 (by simp)
      have hrest : ∀ x ∈ c2 :: rest2, isWs x = true := fun x hx =>
        h x (List.mem_cons_of_mem c hx)
      have hstep : collapseWs (c :: c2 :: rest2) = collapseWs (c2 :: rest2) := by
        conv_lhs => rw [collapseWs]
        simp [hc, hc2]
      rw [hstep]
      exact ih hrest

/-- A whitespace-only text splits into zero words. -/
theorem splitWords_allWs (text : String) (h : ∀ c ∈ text.data, isWs c = true) :
    splitWords text = [] := by
  rcases collapseWs_allWs text.data h with hc | hc
  · rw [splitWords, hc]
    rfl
  · rw [splitWords, hc]
    rfl

/-- The invariant preserved by the greedy wrap fold: every committed line
is measured within `maxW` or is a single word of the word list, and so is
the line under construction unless it is empty. -/
theorem wrap_fold_good (measure : String → Int) (maxW : Int) (words : List String) :
    ∀ (ws : List String) (acc : List String × String),
      (∀ w ∈ ws, w ∈ words) →
      (∀ l ∈ acc.1, measure l ≤ maxW ∨ l ∈ words) →
      (acc.2 = "" ∨ measure acc.2 ≤ maxW ∨ acc.2 ∈ words) →
      ((∀ l ∈ (ws.foldl (wrapStep measure maxW) acc).1, measure l ≤ maxW ∨ l ∈ words) ∧
        ((ws.foldl (wrapStep measure maxW) acc).2 = "" ∨
          measure (ws.foldl (wrapStep measure maxW) acc).2 ≤ maxW ∨
          (ws.foldl (wrapStep measure maxW) acc).2 ∈ words)) := by
  intro ws
  induction ws with
  | nil => intro acc _ hout hline; exact ⟨hout, hline⟩
  | cons w ws ih =>
    intro acc hws hout hline
    rw [List.foldl_cons]
    have hw : w ∈ words := hws w (List.mem_cons_self w ws)
    have hws' : ∀ v ∈ ws, v ∈ words := fun v hv => hws v (List.mem_cons_of_mem w hv)
    by_cases hcond : maxW < measure (if acc.2 = "" then w else acc.2 ++ " " ++ w) ∧ acc.2 ≠ ""
    · have hstep : wrapStep measure maxW acc w = (acc.1 ++ [acc.2], w) := by
        simp only [wrapStep]
        rw [if_pos hcond]
      rw [hstep]
      refine ih (acc.1 ++ [acc.2], w) hws' ?_ ?_
      · intro l hl
        rcases List.mem_append.mp hl with h | h
        · exact hout l h
        · rw [List.mem_singleton.mp h]
          rcases hline with he | hg
          · exact absurd he hcond.2
          · exact hg
      · exact Or.inr (Or.inr hw)
    · have hstep : wrapStep measure maxW acc w =
          (acc.1, if acc.2 = "" then w else acc.2 ++ " " ++ w) := by
        simp only [wrapStep]
        rw [if_neg hcond]
      rw [hstep]
      refine ih (acc.1, if acc.2 = "" then w else acc.2 ++ " " ++ w) hws'
        (fun l hl => hout l hl) ?_
      by_cases he : acc.2 = ""
      · rw [if_pos he]
        exact Or.inr (Or.inr hw)
      · rw [if_neg he]
        have : ¬ maxW < measure (acc.2 ++ " " ++ w) := fun hA => hcond ⟨by rw [if_neg he]; exact hA, he⟩
        exact Or.inr (Or.inl (not_lt.mp this))

/-- Claim C4: word wrap normalizes whitespace runs, trims, and splits the
text into words (a whitespace-only or empty text yields zero lines), and
greedily fills lines so that every output line either measures within
`maxW` or is a single word of the text placed alone — a word is never
split. This holds for every width-measure function. -/
theorem wrap_width_safe :
    ∀ (measure : String → Int) (text : String) (maxW : Int),
      ((∀ c ∈ text.data, isWs c = true) → wrapLines measure text maxW = []) ∧
      (∀ line ∈ wrapLines measure text maxW,
        measure line ≤ maxW ∨ line ∈ splitWords text) := by
  intro measure text maxW
  constructor
  · intro hws
    simp only [wrapLines, splitWords_allWs text hws]
    rfl
  · intro line hline
    have h := wrap_fold_good measure maxW (splitWords text) (splitWords text) ([], "")
      (fun w hw => hw) (by intro l hl; simp at hl) (Or.inl rfl)
    revert hline
    simp only [wrapLines]
    split
    · intro hline
      exact h.1 line hline
    · intro hline
      rcases List.mem_append.mp hline with hl | hl
      · exact h.1 line hl
      · rw [List.mem_singleton.mp hl]
        rcases h.2 with he | hg
        · rename_i hne
          exact absurd he hne
        · exact hg

/-- Witness for the C4 theorem: a whitespace-only text wraps to zero
lines, and the line "hola" of the wrap of "hola mundo" at width 7 is
within the width or a single word of the text. -/
theorem wrap_width_safe_witness :
    wrapLines (fun s => (s.length : Int)) " \t " 5 = [] ∧
      (((fun (s : String) => (s.length : Int)) "hola" ≤ 7) ∨
        "hola" ∈ splitWords "hola mundo") :=
  ⟨(wrap_width_safe (fun s => (s.length : Int)) " \t " 5).1 (by decide),
    (wrap_width_safe (fun s => (s.length : Int)) "hola mundo" 7).2 "hola" (by decide)⟩

/-- Characterization of the font-fit loop's result: the returned line
height and lines come from the returned font size, and the stop condition
holds at the result. -/
theorem fontFitLoop_inv (measure : Nat → String → Int) (text : String) (maxW maxH : Int) :
    ∀ fontSize : Nat,
      (fontFitLoop measure text maxW maxH fontSize).2.1 =
          lineHeightOf (fontFitLoop measure text maxW maxH fontSize).1 ∧
        (fontFitLoop measure text maxW maxH fontSize).2.2 =
          wrapLines (measure (fontFitLoop measure text maxW maxH fontSize).1) text maxW ∧
        (((fontFitLoop measure text maxW maxH fontSize).2.2.length *
              (fontFitLoop measure text maxW maxH fontSize).2.1 : Int) ≤ maxH ∨
          (fontFitLoop measure text maxW maxH fontSize).1 ≤ 10) := by
  intro f
  induction f using Nat.strong_induction_on with
  | _ f ih =>
    rw [fontFitLoop]
    split
    · rename_i hstop
      exact ⟨rfl, rfl, by simpa using hstop⟩
    · rename_i hstop
      push_neg at hstop
      exact ih (f * 9 / 10) (by omega)

/-- The shrink count is bounded by any `k` for which `f · (9/10)^k ≤ 10`. -/
theorem fontFitCount_le (measure : Nat → String → Int) (text : String) (maxW maxH : Int) :
    ∀ (k f : Nat), ((f : ℝ) * (9 / 10) ^ k ≤ 10) →
      fontFitCount measure text maxW maxH f ≤ k := by
  intro k
  induction k with
  | zero =>
    intro f hf
    have hf10 : f ≤ 10 := by
      have hr : (f : ℝ) ≤ 10 := by simpa using hf
      exact_mod_cast hr
    rw [fontFitCount]
    split
    · exact Nat.le_refl 0
    · rename_i hstop
      push_neg at hstop
      omega
  | succ k ihk =>
    intro f hf
    rw [fontFitCount]
    split
    · exact Nat.zero_le _
    · rename_i hstop
      have hcast : ((f * 9 / 10 : Nat) : ℝ) ≤ (f : ℝ) * (9 / 10) := by
        calc ((f * 9 / 10 : Nat) : ℝ) ≤ ((f * 9 : Nat) : ℝ) / ((10 : Nat) : ℝ) :=
            Nat.cast_div_le
          _ = (f : ℝ) * (9 / 10) := by push_cast; ring
      have hnext : ((f * 9 / 10 : Nat) : ℝ) * (9 / 10) ^ k ≤ 10 := by
        calc ((f * 9 / 10 : Nat) : ℝ) * (9 / 10) ^ k
            ≤ ((f : ℝ) * (9 / 10)) * (9 / 10) ^ k :=
              mul_le_mul_of_nonneg_right hcast (by positivity)
          _ = (f : ℝ) * (9 / 10) ^ (k + 1) := by ring
          _ ≤ 10 := hf
      have hrec := ihk (f * 9 / 10) hnext
      omega

/-- For s ≥ 10, after ceil(log(s/10)/log(1/0.9)) geometric shrinks by 9/10
the value is at most 10. -/
theorem shrink_reaches_ten (s : Nat) (hs : 10 ≤ s) :
    (s : ℝ) * (9 / 10) ^ (Nat.ceil (Real.log ((s : ℝ) / 10) / Real.log (1 / 0.9))) ≤ 10 := by
  have hs0 : (0 : ℝ) < s := by
    have hten : (10 : ℝ) ≤ (s : ℝ) := by exact_mod_cast hs
    linarith
  have hlogpos : (0 : ℝ) < Real.log (1 / 0.9) := Real.log_pos (by norm_num)
  set K := Nat.ceil (Real.log ((s : ℝ) / 10) / Real.log (1 / 0.9)) with hK
  have hL : Real.log ((s : ℝ) / 10) / Real.log (1 / 0.9) ≤ (K : ℝ) := Nat.le_ceil _
  have h1 : Real.log ((s : ℝ) / 10) ≤ (K : ℝ) * Real.log (1 / 0.9) := by
    rw [div_le_iff₀ hlogpos] at hL
    exact hL
  have h2 : Real.log (1 / 0.9) = - Real.log (9 / 10) := by
    rw [show (1 / 0.9 : ℝ) = ((9 : ℝ) / 10)⁻¹ by norm_num, Real.log_inv]
  have h3 : Real.log ((s : ℝ) / 10) = Real.log (s : ℝ) - Real.log 10 :=
    Real.log_div (ne_of_gt hs0) (by norm_num)
  have h4 : Real.log ((s : ℝ) * (9 / 10) ^ K) ≤ Real.log 10 := by
    rw [Real.log_mul (ne_of_gt hs0) (by positivity), Real.log_pow]
    rw [h3, h2] at h1
    linarith
  exact (Real.log_le_log_iff (by positivity) (by norm_num)).mp h4

/-- The starting font size is always at least 10. -/
theorem startFont_ge_ten (maxH : Int) : 10 ≤ startFont maxH :=
  le_max_left 10 _

/-- Claim C5: the font-fit loop starts at fontSize = max(10, floor(maxH ·
0.75)); at its result, lineHeight = ceil(fontSize · 1.25) and the lines
are the wrap of the text at the final size, and the loop has stopped
exactly because the wrapped height fits within maxH or the size reached
10; each continuing iteration strictly decreases the font size via
floor(fontSize · 0.9), and the number of shrink iterations is at most
ceil(log(startFont / 10) / log(1 / 0.9)). -/
theorem fontFit_terminates_bound :
    ∀ (measure : Nat → String → Int) (text : String) (maxW maxH : Int),
      (∀ f : Nat, 10 < f → f * 9 / 10 < f) ∧
      ((fontFitLoop measure text maxW maxH (startFont maxH)).2.1 =
          lineHeightOf (fontFitLoop measure text maxW maxH (startFont maxH)).1 ∧
        (fontFitLoop measure text maxW maxH (startFont maxH)).2.2 =
          wrapLines (measure (fontFitLoop measure text maxW maxH (startFont maxH)).1) text maxW ∧
        (((fontFitLoop measure text maxW maxH (startFont maxH)).2.2.length *
              (fontFitLoop measure text maxW maxH (startFont maxH)).2.1 : Int) ≤ maxH ∨
          (fontFitLoop measure text maxW maxH (startFont maxH)).1 ≤ 10)) ∧
      fontFitCount measure text maxW maxH (startFont maxH) ≤
        Nat.ceil (Real.log ((startFont maxH : ℝ) / 10) / Real.log (1 / 0.9)) := by
  intro measure text maxW maxH
  refine ⟨fun f hf => by omega, fontFitLoop_inv measure text maxW maxH (startFont maxH), ?_⟩
  exact fontFitCount_le measure text maxW maxH _ (startFont maxH)
    (shrink_reaches_ten (startFont maxH) (startFont_ge_ten maxH))

/-- Witness for the C5 theorem at a concrete region: starting font 16 (for
maxH = 22) shrinks strictly (16·9/10 = 14 < 16), and with a simple
length-proportional measure the loop performs 3 shrinks, within the
claimed bound. -/
theorem fontFit_terminates_bound_witness :
    (16 * 9 / 10 < 16) ∧
      fontFitCount (fun f s => (f * s.length : Int)) "Hola Mundo" 84 22 (startFont 22) ≤
        Nat.ceil (Real.log ((startFont 22 : ℝ) / 10) / Real.log (1 / 0.9)) :=
  ⟨(fontFit_terminates_bound (fun f s => (f * s.length : Int)) "Hola Mundo" 84 22).1 16
      (by decide),
    (fontFit_terminates_bound (fun f s => (f * s.length : Int)) "Hola Mundo" 84 22).2.2⟩

end Theorems

end Ully
